import Mathlib

/-!
Verification of the TTS playback subsystem of the read-frog browser extension.

The definitions below are a shallow embedding of the code in
`src/apps/extension/src/entrypoints/selection.content/selection-toolbar/audio-manager.ts`
and of the `AudioCache` wrapper in
`src/apps/extension/src/entrypoints/selection.content/selection-toolbar/translate-button.tsx`.
Strings are modelled as `List Char`; JavaScript string lengths are code-point
counts here.  The stateful orchestration (`playTextWithTTS`) is embedded as a
state-passing interpreter over an oracle that supplies HTTP responses and
playback outcomes, recording an event trace.
-/

namespace ReadFrog

abbrev Chars := List Char

/-- Sentence-terminator characters, from the regex `[.!?\n]+` in
`splitTextForTTS`. -/
def isTermChar (c : Char) : Bool :=
  c == '.' || c == '!' || c == '?' || c == '\n'

/-- JavaScript whitespace (the regex class `\s`, also used by `trim`). -/
def isWsChar (c : Char) : Bool :=
  c == ' ' || c == '\t' || c == '\n' || c == '\r' ||
  c == '\x0b' || c == '\x0c' || c == '\u00a0' || c == '\u1680' ||
  ('\u2000' ≤ c && c ≤ '\u200a') || c == '\u2028' || c == '\u2029' ||
  c == '\u202f' || c == '\u205f' || c == '\u3000' || c == '\ufeff'

/-- Fuel-indexed worker for `splitSentences`; the fuel only serves to make
the recursion structural, and `splitSentences` supplies enough of it. -/
def splitSentencesF (fuel : Nat) (s : Chars) : List Chars :=
  match fuel with
  | 0 => [s]
  | fuel + 1 =>
    if (s.dropWhile (fun c => !(isTermChar c))).length = 0 then
      [s.takeWhile (fun c => !(isTermChar c))]
    else
      s.takeWhile (fun c => !(isTermChar c)) ::
      ((s.dropWhile (fun c => !(isTermChar c))).takeWhile isTermChar ++
        ((s.dropWhile (fun c => !(isTermChar c))).dropWhile isTermChar).takeWhile isWsChar) ::
      splitSentencesF fuel
        ((((s.dropWhile (fun c => !(isTermChar c))).dropWhile isTermChar)).dropWhile isWsChar)

/-- Embedding of the JS capturing split `text.split(/([.!?\n]+\s*)/)`:
the result alternates text pieces with captured separator pieces, where a
separator is a maximal run of terminator characters followed by a maximal
run of whitespace. -/
def splitSentences (s : Chars) : List Chars :=
  splitSentencesF (s.length + 1) s

/-- Fuel-indexed worker for `splitWords`. -/
def splitWordsF (fuel : Nat) (s : Chars) : List Chars :=
  match fuel with
  | 0 => [s]
  | fuel + 1 =>
    if (s.dropWhile (fun c => !(isWsChar c))).length = 0 then
      [s.takeWhile (fun c => !(isWsChar c))]
    else
      s.takeWhile (fun c => !(isWsChar c)) ::
      (s.dropWhile (fun c => !(isWsChar c))).takeWhile isWsChar ::
      splitWordsF fuel ((s.dropWhile (fun c => !(isWsChar c))).dropWhile isWsChar)

/-- Embedding of the JS capturing split `sentence.split(/(\s+)/)`:
alternates whitespace-free pieces with captured maximal whitespace runs. -/
def splitWords (s : Chars) : List Chars :=
  splitWordsF (s.length + 1) s

/-- Embedding of JS `String.prototype.trim`. -/
def jsTrim (s : Chars) : Chars :=
  ((s.dropWhile isWsChar).reverse.dropWhile isWsChar).reverse

/-- Accumulator of the chunking loop: the `chunks` array and the running
`currentChunk` string. -/
structure ChunkAcc where
  chunks : List Chars
  currentChunk : Chars
deriving Repr, DecidableEq

/-- One iteration of the inner word loop of `splitTextForTTS`
(`for (const word of words) ...`). -/
def wordStep (maxChars : Nat) (acc : ChunkAcc) (w : Chars) : ChunkAcc :=
  if maxChars < acc.currentChunk.length + w.length then
    { chunks := acc.chunks ++ (if acc.currentChunk.isEmpty then [] else [jsTrim acc.currentChunk]),
      currentChunk := w }
  else
    { chunks := acc.chunks, currentChunk := acc.currentChunk ++ w }

/-- One iteration of the outer sentence loop of `splitTextForTTS`. -/
def sentenceStep (maxChars : Nat) (acc : ChunkAcc) (s : Chars) : ChunkAcc :=
  if s.isEmpty then acc
  else if maxChars < s.length then
    (splitWords s).foldl (wordStep maxChars)
      (if acc.currentChunk.isEmpty then acc
       else { chunks := acc.chunks ++ [jsTrim acc.currentChunk], currentChunk := [] })
  else if maxChars < acc.currentChunk.length + s.length then
    { chunks := acc.chunks ++ [jsTrim acc.currentChunk], currentChunk := s }
  else
    { chunks := acc.chunks, currentChunk := acc.currentChunk ++ s }

/-- The OpenAI TTS API character limit (`MAX_TTS_CHARACTERS`). -/
def MAX_TTS_CHARACTERS : Nat := 4096

/-- Embedding of `splitTextForTTS(text, maxChars)` from `audio-manager.ts`. -/
def splitTextForTTS (text : Chars) (maxChars : Nat) : List Chars :=
  if text.length ≤ maxChars then [text]
  else
    let fin := (splitSentences text).foldl (sentenceStep maxChars) ⟨[], []⟩
    (fin.chunks ++ (if fin.currentChunk.isEmpty then [] else [jsTrim fin.currentChunk])).filter
      (fun c => decide (0 < c.length))

/-- Non-whitespace content of a string, in order. -/
def nws (s : Chars) : Chars := s.filter (fun c => !(isWsChar c))

/-- `c` occurs verbatim as a contiguous segment of `text`. -/
def subSeg (c text : Chars) : Prop := ∃ p q, text = p ++ c ++ q

/-- `x` contains no whitespace character. -/
def wsFree (x : Chars) : Prop := ∀ c ∈ x, isWsChar c = false

/-- `x` consists of whitespace characters only. -/
def allWs (x : Chars) : Prop := ∀ c ∈ x, isWsChar c = true

/-- Re-joining a chunk list with single spaces (the reading used by the
content-preservation property). -/
def joinSp : List Chars → Chars
  | [] => []
  | [c] => c
  | c :: r => c ++ ' ' :: joinSp r

/-- Raw audio payload (an opaque byte sequence). -/
abbrev Blob := List Nat

/-- The cache key: a structural embedding of the deterministic, order-sensitive
serialization `JSON.stringify` of the object literal with fields
text, model, voice, speed in that fixed order (the serialization is injective
on this shape, so this structure induces the same key map as the string). -/
structure CacheKey where
  text : Chars
  model : Chars
  voice : Chars
  speed : Rat
deriving DecidableEq, Repr

/-- A cache entry: object URL plus blob, as in the `CachedAudio` interface. -/
structure CachedAudio where
  url : Nat
  blob : Blob
deriving DecidableEq, Repr

abbrev CacheStore := List (CacheKey × CachedAudio)

/-- Modelled from the spec: the generic `LRUCache` data structure
(`@/utils/data-structure/rlu`) is not under `src/`, only its callers are.
Per the spec, it is an ordered bounded map: a `get` on a present key promotes
it to most-recently-used and returns its value.  The store is kept with the
most-recently-used entry first. -/
def lruGet (c : CacheStore) (k : CacheKey) : Option CachedAudio × CacheStore :=
  match c.find? (fun p => p.1 == k) with
  | none => (none, c)
  | some p => (some p.2, p :: c.eraseP (fun q => q.1 == k))

/-- The cache capacity (10, from `new LRUCache(10)` in the source). -/
def LRU_CAPACITY : Nat := 10

/-- Modelled from the spec: `LRUCache.set` inserts or overwrites and promotes
the key to most-recently-used; inserting a new key at capacity first evicts
the least-recently-used entry (the last of the ordered store). -/
def lruSet (c : CacheStore) (k : CacheKey) (v : CachedAudio) : CacheStore :=
  if (c.find? (fun p => p.1 == k)).isSome then
    (k, v) :: c.eraseP (fun q => q.1 == k)
  else if c.length < LRU_CAPACITY then
    (k, v) :: c
  else
    (k, v) :: c.dropLast

/-- Embedding of `AudioCache.set` from `translate-button.tsx` (lines 62-74).
The source computes `oldSize`, delegates to `LRUCache.set`, and then has an
eviction-cleanup branch (`if (oldSize === this.cache.size && oldSize > 0)`)
whose body is empty: it revokes no object URL.  The second component is the
list of URLs the call revokes — always empty, mirroring the source. -/
def AudioCache.set (c : CacheStore) (k : CacheKey) (v : CachedAudio) :
    CacheStore × List Nat :=
  (lruSet c k v, [])

/-- Embedding of `AudioCache.clear` (lines 76-79): it only clears the
underlying map and revokes no object URL. -/
def AudioCache.clear (_c : CacheStore) : CacheStore × List Nat :=
  ([], [])

/-- A remote TTS response as seen by `fetchAudioFromAPI`: either the fetch
promise itself rejects (network failure), or an HTTP response arrives.
`parsedBody = none` models a body that `.json()` failed to parse (caught into
an empty object); `some m` models a parsed body whose `error?.message` chain
yields `m`. -/
inductive FetchResp where
  | network (msg : Chars)
  | http (ok : Bool) (status : Nat) (parsedBody : Option (Option Chars)) (blob : Blob)
deriving DecidableEq, Repr

/-- The generic fallback error message, from the template literal
`HTTP error! status: ` followed by the status. -/
def httpErrorMsg (status : Nat) : Chars :=
  ("HTTP error! status: " ++ Nat.repr status).data

/-- JS `a || b` on an optional string: the fallback is used when the value is
absent or the empty string (both falsy). -/
def jsOrElse (m : Option Chars) (fb : Chars) : Chars :=
  match m with
  | none => fb
  | some s => if s.isEmpty then fb else s

/-- Embedding of `fetchAudioFromAPI` (audio-manager.ts lines 97-125); the
`FetchResp` argument abstracts the HTTP layer. -/
def fetchAudioFromAPI (r : FetchResp) : Except Chars Blob :=
  match r with
  | .network msg => .error msg
  | .http ok status parsedBody blob =>
    if ok then .ok blob
    else .error (jsOrElse parsedBody.join (httpErrorMsg status))

/-- The fate of one playback: natural end, an `onerror` event after playback
started, or rejection of the `audio.play()` promise itself. -/
inductive PlayOutcome where
  | ended
  | error
  | rejected (msg : Chars)
deriving DecidableEq, Repr

/-- Environment oracle: the HTTP response to the n-th fetch invocation and the
fate of the n-th created playback. -/
structure Oracle where
  fetchResp : Nat → FetchResp
  playResult : Nat → PlayOutcome

/-- Observable events of a run, in order. -/
inductive Ev where
  | stopped (audio : Nat)
  | fetched (n : Nat)
  | urlCreated (url : Nat)
  | cacheWrite (k : CacheKey)
  | currentSet (audio : Option Nat)
  | playStarted (audio : Nat)
  | chunkEnded (audio : Nat)
  | chunkErrored (audio : Nat)
  | urlRevoked (url : Nat)
deriving DecidableEq, Repr

/-- An `HTMLAudioElement` as far as the manager observes it. -/
structure AudioElem where
  id : Nat
  src : Nat
  paused : Bool
  currentTime : Nat
deriving DecidableEq, Repr

/-- The process-wide state: the shared `currentAudio` reference, all audio
elements created so far, the shared `audioCache` store, freshness counters
and the event trace. -/
structure St where
  current : Option Nat
  audios : List AudioElem
  cache : CacheStore
  nextAudio : Nat
  nextUrl : Nat
  fetchCount : Nat
  playCount : Nat
  events : List Ev
deriving DecidableEq, Repr

/-- Embedding of `getCurrentAudio` (lines 17-19). -/
def getCurrentAudio (s : St) : Option Nat := s.current

/-- Embedding of `setCurrentAudio` (lines 24-26). -/
def setCurrentAudio (s : St) (a : Option Nat) : St :=
  { s with current := a, events := s.events ++ [Ev.currentSet a] }

/-- Embedding of `stopCurrentAudio` (lines 31-37): if an audio is tracked,
pause it, reset its position to the start and clear the shared reference;
otherwise do nothing. -/
def stopCurrentAudio (s : St) : St :=
  match s.current with
  | none => s
  | some a =>
    { s with
      audios := s.audios.map (fun e =>
        if e.id = a then { e with paused := true, currentTime := 0 } else e),
      current := none,
      events := s.events ++ [Ev.stopped a] }

/-- The `onended` handler of the multi-chunk playback promise (lines 180-185):
it clears the shared reference only if this audio element is still the one
currently tracked, then resolves. -/
def fireEnded (s : St) (a : Nat) : St :=
  let s1 := { s with events := s.events ++ [Ev.chunkEnded a] }
  if getCurrentAudio s1 = some a then setCurrentAudio s1 none else s1

/-- The `onerror` handler of the multi-chunk playback promise (lines 187-192):
same guarded clear, then rejects. -/
def fireError (s : St) (a : Nat) : St :=
  let s1 := { s with events := s.events ++ [Ev.chunkErrored a] }
  if getCurrentAudio s1 = some a then setCurrentAudio s1 none else s1

/-- The `cleanup` handler of the single-chunk branch (lines 218-224): detaches
the handlers and performs the same guarded clear of the shared reference. -/
def cleanupSingle (s : St) (a : Nat) : St :=
  if getCurrentAudio s = some a then setCurrentAudio s none else s

/-- `new Audio(audioUrl)` followed by `setCurrentAudio(audio)`. -/
def newAudio (s : St) (u : Nat) : Nat × St :=
  let a := s.nextAudio
  (a, setCurrentAudio
    { s with nextAudio := a + 1, audios := s.audios ++ [⟨a, u, true, 0⟩] }
    (some a))

/-- Embedding of the per-chunk playback promise of the multi-chunk branch
(lines 176-195): create and track the element, start playback, and suspend
until the chunk's terminal event; the oracle decides its fate. -/
def awaitChunkPlayback (ora : Oracle) (s : St) (u : Nat) : St × Option Chars :=
  let (a, s1) := newAudio s u
  match ora.playResult s1.playCount with
  | .ended =>
    let s2 := { s1 with
      playCount := s1.playCount + 1,
      audios := s1.audios.map (fun e =>
        if e.id = a then { e with paused := false } else e),
      events := s1.events ++ [Ev.playStarted a] }
    (fireEnded s2 a, none)
  | .error =>
    let s2 := { s1 with
      playCount := s1.playCount + 1,
      audios := s1.audios.map (fun e =>
        if e.id = a then { e with paused := false } else e),
      events := s1.events ++ [Ev.playStarted a] }
    (fireError s2 a, some "Audio playback error".data)
  | .rejected msg =>
    ({ s1 with playCount := s1.playCount + 1 }, some msg)

def mkCacheKey (text model voice : Chars) (speed : Rat) : CacheKey :=
  ⟨text, model, voice, speed⟩

/-- The cache-miss tail shared by both branches (lines 170-172 and 210-212):
`URL.createObjectURL(audioBlob)` (a fresh URL) followed by
`audioCache.set(cacheKey, ...)`; returns the updated state and the new URL. -/
def cacheAndCreate (s : St) (key : CacheKey) (blob : Blob) : St × Nat :=
  let u := s.nextUrl
  let s2 := { s with
    fetchCount := s.fetchCount + 1,
    nextUrl := u + 1,
    events := s.events ++ [Ev.fetched s.fetchCount, Ev.urlCreated u] }
  let w := AudioCache.set s2.cache key ⟨u, blob⟩
  ({ s2 with
      cache := w.1,
      events := s2.events ++ [Ev.cacheWrite key] ++ w.2.map Ev.urlRevoked }, u)

/-- The body of one iteration of the multi-chunk loop (lines 158-196):
key lookup, fetch-and-cache on miss, then play the chunk to completion. -/
def playChunk (ora : Oracle) (model voice : Chars) (speed : Rat) (s : St) (chunk : Chars) :
    St × Option Chars :=
  let key := mkCacheKey chunk model voice speed
  match lruGet s.cache key with
  | (some ca, cache1) => awaitChunkPlayback ora { s with cache := cache1 } ca.url
  | (none, cache1) =>
    let s1 := { s with cache := cache1 }
    match fetchAudioFromAPI (ora.fetchResp s1.fetchCount) with
    | .error msg =>
      ({ s1 with
          fetchCount := s1.fetchCount + 1,
          events := s1.events ++ [Ev.fetched s1.fetchCount] }, some msg)
    | .ok blob =>
      let r := cacheAndCreate s1 key blob
      awaitChunkPlayback ora r.1 r.2

/-- The multi-chunk loop (`for (let i = 0; ...)`): play chunks sequentially,
aborting on the first failure. -/
def playChunksLoop (ora : Oracle) (model voice : Chars) (speed : Rat) :
    List Chars → St → St × Option Chars
  | [], s => (s, none)
  | chunk :: rest, s =>
    match playChunk ora model voice speed s chunk with
    | (s1, some e) => (s1, some e)
    | (s1, none) => playChunksLoop ora model voice speed rest s1

/-- The tail of the single-chunk branch (lines 215-229): create and track the
element, attach the cleanup handlers, and `await audio.play()` — resolving as
soon as playback has started; the terminal handler fires only later, outside
this call. -/
def startSinglePlayback (ora : Oracle) (s : St) (u : Nat) : St × Option Chars :=
  let (a, s1) := newAudio s u
  match ora.playResult s1.playCount with
  | .rejected msg => ({ s1 with playCount := s1.playCount + 1 }, some msg)
  | _ =>
    ({ s1 with
        playCount := s1.playCount + 1,
        audios := s1.audios.map (fun e =>
          if e.id = a then { e with paused := false } else e),
        events := s1.events ++ [Ev.playStarted a] }, none)

/-- The single-chunk branch of `playTextWithTTS` (lines 198-230). -/
def playSingle (ora : Oracle) (model voice : Chars) (speed : Rat) (text : Chars) (s : St) :
    St × Option Chars :=
  let key := mkCacheKey text model voice speed
  match lruGet s.cache key with
  | (some ca, cache1) => startSinglePlayback ora { s with cache := cache1 } ca.url
  | (none, cache1) =>
    let s1 := { s with cache := cache1 }
    match fetchAudioFromAPI (ora.fetchResp s1.fetchCount) with
    | .error msg =>
      ({ s1 with
          fetchCount := s1.fetchCount + 1,
          events := s1.events ++ [Ev.fetched s1.fetchCount] }, some msg)
    | .ok blob =>
      let r := cacheAndCreate s1 key blob
      startSinglePlayback ora r.1 r.2

/-- Embedding of `playTextWithTTS` (lines 141-231): stop any current audio,
chunk the text with the fixed API limit, then either play the chunks
sequentially (waiting for each) or run the simpler single-chunk logic. -/
def playTextWithTTS (ora : Oracle) (text model voice : Chars) (speed : Rat) (s : St) :
    St × Option Chars :=
  let s1 := stopCurrentAudio s
  let textChunks := splitTextForTTS text MAX_TTS_CHARACTERS
  if 1 < textChunks.length then
    playChunksLoop ora model voice speed textChunks s1
  else
    playSingle ora model voice speed text s1

/-- Recognizer for revocation events. -/
def isRevoke (e : Ev) : Bool :=
  match e with
  | .urlRevoked _ => true
  | _ => false

/-- Recognizer for playback-start events. -/
def isPlayStart (e : Ev) : Bool :=
  match e with
  | .playStarted _ => true
  | _ => false

/-- Recognizer for fetch-invocation events. -/
def isFetch (e : Ev) : Bool :=
  match e with
  | .fetched _ => true
  | _ => false

/-- Recognizer for natural-end events. -/
def isEnded (e : Ev) : Bool :=
  match e with
  | .chunkEnded _ => true
  | _ => false

/-- The new events of a step extend the old trace and contain no revocation. -/
def appendsNoRevoke (s sNew : St) : Prop :=
  ∃ t, sNew.events = s.events ++ t ∧ t.filter isRevoke = []

/-- The pristine initial state: nothing playing, empty cache, empty trace. -/
def st0 : St := ⟨none, [], [], 0, 0, 0, 0, []⟩

/-- An environment in which every fetch succeeds and every playback reaches
its natural end. -/
def oraAllOk : Oracle :=
  ⟨fun _ => FetchResp.http true 200 none [1], fun _ => PlayOutcome.ended⟩

/-- An environment in which every fetch fails with a bare HTTP 500. -/
def oraFail : Oracle :=
  ⟨fun _ => FetchResp.http false 500 none [], fun _ => PlayOutcome.ended⟩

/-- An environment answering HTTP 401 with body error.message
`invalid api key`. -/
def ora401 : Oracle :=
  ⟨fun _ => FetchResp.http false 401 (some (some "invalid api key".data)) [],
   fun _ => PlayOutcome.ended⟩

/-- A sample cache key family for concrete cache experiments. -/
def sampleKey (i : Nat) : CacheKey := ⟨(Nat.repr i).data, "tts-1".data, "alloy".data, 1⟩

/-- A sample cache entry family. -/
def sampleEntry (i : Nat) : CachedAudio := ⟨i, [i]⟩

/-- A store at capacity: keys 9 (most recent) down to 0 (least recent). -/
def fullStore : CacheStore :=
  ((List.range 10).reverse).map (fun i => (sampleKey i, sampleEntry i))

/-- A chunk admissible for the bound property: within the limit, or an
oversized whitespace-free token occurring verbatim in the text. -/
def chunkOk (text : Chars) (maxChars : Nat) (c : Chars) : Prop :=
  c.length ≤ maxChars ∨ (wsFree c ∧ subSeg c text)

/-- Invariant of the running chunk: within the limit, or a single piece of a
whitespace split (hence uniformly whitespace or whitespace-free) occurring
verbatim in the text. -/
def ccOk (text : Chars) (maxChars : Nat) (cc : Chars) : Prop :=
  cc.length ≤ maxChars ∨ ((wsFree cc ∨ allWs cc) ∧ subSeg cc text)

/-- Loop invariant of the chunking fold. -/
def accOk (text : Chars) (maxChars : Nat) (acc : ChunkAcc) : Prop :=
  (∀ c ∈ acc.chunks, chunkOk text maxChars c) ∧ ccOk text maxChars acc.currentChunk

/-- The non-whitespace content carried by an accumulator. -/
def nwsAcc (acc : ChunkAcc) : Chars :=
  nws acc.chunks.flatten ++ nws acc.currentChunk

theorem length_dropWhile_le (p : Char → Bool) (l : Chars) :
    (l.dropWhile p).length ≤ l.length := by
  induction l with
  | nil => simp
  | cons c t ih =>
    rw [List.dropWhile_cons]
    split
    · simp only [List.length_cons]; omega
    · simp

theorem dropWhile_head_false (p : Char → Bool) (l : Chars) (c : Char) (t : Chars)
    (h : l.dropWhile p = c :: t) : p c = false := by
  induction l with
  | nil => simp at h
  | cons d r ih =>
    rw [List.dropWhile_cons] at h
    split at h
    · exact ih h
    · rename_i hd
      injection h with h1 h2
      subst h1
      simpa using hd

theorem dropWhile_dropWhile_lt (p q : Char → Bool) (l : Chars)
    (h : ¬ (l.dropWhile p).length = 0)
    (hhead : ∀ c t, l.dropWhile p = c :: t → q c = true) :
    ((l.dropWhile p).dropWhile q).length < l.length := by
  cases hd : l.dropWhile p with
  | nil => rw [hd] at h; simp at h
  | cons c t =>
    have hq := hhead c t hd
    simp only [List.dropWhile_cons, hq, if_true]
    have h1 : (t.dropWhile q).length ≤ t.length := length_dropWhile_le q t
    have h2 : (c :: t).length ≤ l.length := by
      rw [← hd]; exact length_dropWhile_le p l
    simp only [List.length_cons] at h2
    omega

theorem appendsNoRevoke_refl (s : St) : appendsNoRevoke s s :=
  ⟨[], by simp, rfl⟩

theorem appendsNoRevoke_trans {a b c : St} (h1 : appendsNoRevoke a b)
    (h2 : appendsNoRevoke b c) : appendsNoRevoke a c := by
  obtain ⟨t1, he1, hr1⟩ := h1
  obtain ⟨t2, he2, hr2⟩ := h2
  refine ⟨t1 ++ t2, ?_, ?_⟩
  · rw [he2, he1, List.append_assoc]
  · rw [List.filter_append, hr1, hr2]; rfl

theorem setCurrentAudio_appends (s : St) (a : Option Nat) :
    appendsNoRevoke s (setCurrentAudio s a) :=
  ⟨[Ev.currentSet a], rfl, rfl⟩

theorem stopCurrentAudio_appends (s : St) : appendsNoRevoke s (stopCurrentAudio s) := by
  unfold stopCurrentAudio
  cases s.current with
  | none => exact appendsNoRevoke_refl s
  | some a => exact ⟨[Ev.stopped a], rfl, rfl⟩

theorem stopCurrentAudio_cache (s : St) : (stopCurrentAudio s).cache = s.cache := by
  unfold stopCurrentAudio
  cases s.current <;> rfl

theorem stopCurrentAudio_counts (s : St) :
    (stopCurrentAudio s).fetchCount = s.fetchCount ∧
    (stopCurrentAudio s).playCount = s.playCount ∧
    (stopCurrentAudio s).nextAudio = s.nextAudio ∧
    (stopCurrentAudio s).nextUrl = s.nextUrl := by
  unfold stopCurrentAudio
  cases s.current <;> exact ⟨rfl, rfl, rfl, rfl⟩

theorem fireEnded_events (s : St) (a : Nat) :
    (fireEnded s a).events = s.events ++ [Ev.chunkEnded a] ∨
    (fireEnded s a).events = s.events ++ [Ev.chunkEnded a, Ev.currentSet none] := by
  unfold fireEnded setCurrentAudio getCurrentAudio
  dsimp only
  split
  · right; simp
  · left; rfl

theorem fireError_events (s : St) (a : Nat) :
    (fireError s a).events = s.events ++ [Ev.chunkErrored a] ∨
    (fireError s a).events = s.events ++ [Ev.chunkErrored a, Ev.currentSet none] := by
  unfold fireError setCurrentAudio getCurrentAudio
  dsimp only
  split
  · right; simp
  · left; rfl

theorem cleanupSingle_events (s : St) (a : Nat) :
    (cleanupSingle s a).events = s.events ∨
    (cleanupSingle s a).events = s.events ++ [Ev.currentSet none] := by
  unfold cleanupSingle setCurrentAudio getCurrentAudio
  split
  · right; rfl
  · left; rfl

theorem fireEnded_cache (s : St) (a : Nat) : (fireEnded s a).cache = s.cache := by
  unfold fireEnded setCurrentAudio getCurrentAudio
  dsimp only
  split <;> rfl

theorem fireError_cache (s : St) (a : Nat) : (fireError s a).cache = s.cache := by
  unfold fireError setCurrentAudio getCurrentAudio
  dsimp only
  split <;> rfl

theorem cleanupSingle_cache (s : St) (a : Nat) : (cleanupSingle s a).cache = s.cache := by
  unfold cleanupSingle setCurrentAudio getCurrentAudio
  split <;> rfl

theorem fireEnded_appends (s : St) (a : Nat) : appendsNoRevoke s (fireEnded s a) := by
  rcases fireEnded_events s a with h | h
  · exact ⟨_, h, rfl⟩
  · exact ⟨_, h, rfl⟩

theorem fireError_appends (s : St) (a : Nat) : appendsNoRevoke s (fireError s a) := by
  rcases fireError_events s a with h | h
  · exact ⟨_, h, rfl⟩
  · exact ⟨_, h, rfl⟩

theorem cleanupSingle_appends (s : St) (a : Nat) : appendsNoRevoke s (cleanupSingle s a) := by
  rcases cleanupSingle_events s a with h | h
  · exact ⟨[], by simp [h], rfl⟩
  · exact ⟨_, h, rfl⟩

theorem newAudio_appends (s : St) (u : Nat) : appendsNoRevoke s (newAudio s u).2 :=
  ⟨[Ev.currentSet (some s.nextAudio)], rfl, rfl⟩

theorem awaitChunkPlayback_appends (ora : Oracle) (s : St) (u : Nat) :
    appendsNoRevoke s (awaitChunkPlayback ora s u).1 := by
  unfold awaitChunkPlayback newAudio
  dsimp only
  cases ora.playResult (setCurrentAudio
      { s with nextAudio := s.nextAudio + 1,
               audios := s.audios ++ [⟨s.nextAudio, u, true, 0⟩] }
      (some s.nextAudio)).playCount with
  | ended =>
    dsimp only
    refine appendsNoRevoke_trans ?_ (fireEnded_appends _ _)
    exact ⟨[Ev.currentSet (some s.nextAudio), Ev.playStarted s.nextAudio],
      by simp [setCurrentAudio], rfl⟩
  | error =>
    dsimp only
    refine appendsNoRevoke_trans ?_ (fireError_appends _ _)
    exact ⟨[Ev.currentSet (some s.nextAudio), Ev.playStarted s.nextAudio],
      by simp [setCurrentAudio], rfl⟩
  | rejected msg =>
    dsimp only
    exact ⟨[Ev.currentSet (some s.nextAudio)], rfl, rfl⟩

theorem startSinglePlayback_appends (ora : Oracle) (s : St) (u : Nat) :
    appendsNoRevoke s (startSinglePlayback ora s u).1 := by
  unfold startSinglePlayback newAudio
  dsimp only
  cases ora.playResult (setCurrentAudio
      { s with nextAudio := s.nextAudio + 1,
               audios := s.audios ++ [⟨s.nextAudio, u, true, 0⟩] }
      (some s.nextAudio)).playCount with
  | ended =>
    exact ⟨[Ev.currentSet (some s.nextAudio), Ev.playStarted s.nextAudio],
      by simp [setCurrentAudio], rfl⟩
  | error =>
    exact ⟨[Ev.currentSet (some s.nextAudio), Ev.playStarted s.nextAudio],
      by simp [setCurrentAudio], rfl⟩
  | rejected msg =>
    exact ⟨[Ev.currentSet (some s.nextAudio)], rfl, rfl⟩

theorem cacheAndCreate_events (s : St) (key : CacheKey) (blob : Blob) :
    (cacheAndCreate s key blob).1.events
      = s.events ++ [Ev.fetched s.fetchCount, Ev.urlCreated s.nextUrl, Ev.cacheWrite key] := by
  simp [cacheAndCreate, AudioCache.set]

theorem cacheAndCreate_fields (s : St) (key : CacheKey) (blob : Blob) :
    (cacheAndCreate s key blob).1.cache = lruSet s.cache key ⟨s.nextUrl, blob⟩ ∧
    (cacheAndCreate s key blob).1.fetchCount = s.fetchCount + 1 ∧
    (cacheAndCreate s key blob).1.nextUrl = s.nextUrl + 1 ∧
    (cacheAndCreate s key blob).1.current = s.current ∧
    (cacheAndCreate s key blob).1.playCount = s.playCount ∧
    (cacheAndCreate s key blob).2 = s.nextUrl :=
  ⟨rfl, rfl, rfl, rfl, rfl, rfl⟩

theorem playChunk_appends (ora : Oracle) (model voice : Chars) (speed : Rat)
    (s : St) (chunk : Chars) :
    appendsNoRevoke s (playChunk ora model voice speed s chunk).1 := by
  unfold playChunk
  dsimp only
  rcases hg : lruGet s.cache (mkCacheKey chunk model voice speed) with ⟨hit, cache1⟩
  cases hit with
  | some ca =>
    dsimp only
    refine appendsNoRevoke_trans (⟨[], by simp, rfl⟩ :
      appendsNoRevoke s { s with cache := cache1 }) ?_
    exact awaitChunkPlayback_appends _ _ _
  | none =>
    dsimp only
    rcases hf : fetchAudioFromAPI (ora.fetchResp s.fetchCount) with msg | blob
    · exact ⟨[Ev.fetched s.fetchCount], rfl, rfl⟩
    · dsimp only
      refine appendsNoRevoke_trans ?_ (awaitChunkPlayback_appends _ _ _)
      exact ⟨_, cacheAndCreate_events _ _ _, rfl⟩

theorem playChunksLoop_appends (ora : Oracle) (model voice : Chars) (speed : Rat)
    (chunks : List Chars) : ∀ s : St,
    appendsNoRevoke s (playChunksLoop ora model voice speed chunks s).1 := by
  induction chunks with
  | nil => intro s; exact appendsNoRevoke_refl s
  | cons c rest ih =>
    intro s
    unfold playChunksLoop
    rcases hp : playChunk ora model voice speed s c with ⟨s1, err⟩
    have h1 : appendsNoRevoke s s1 := by
      have h2 := playChunk_appends ora model voice speed s c
      rw [hp] at h2
      exact h2
    cases err with
    | some e => exact h1
    | none => exact appendsNoRevoke_trans h1 (ih s1)

theorem playSingle_appends (ora : Oracle) (model voice : Chars) (speed : Rat)
    (text : Chars) (s : St) :
    appendsNoRevoke s (playSingle ora model voice speed text s).1 := by
  unfold playSingle
  dsimp only
  rcases hg : lruGet s.cache (mkCacheKey text model voice speed) with ⟨hit, cache1⟩
  cases hit with
  | some ca =>
    dsimp only
    refine appendsNoRevoke_trans (⟨[], by simp, rfl⟩ :
      appendsNoRevoke s { s with cache := cache1 }) ?_
    exact startSinglePlayback_appends _ _ _
  | none =>
    dsimp only
    rcases hf : fetchAudioFromAPI (ora.fetchResp s.fetchCount) with msg | blob
    · exact ⟨[Ev.fetched s.fetchCount], rfl, rfl⟩
    · dsimp only
      refine appendsNoRevoke_trans ?_ (startSinglePlayback_appends _ _ _)
      exact ⟨_, cacheAndCreate_events _ _ _, rfl⟩

theorem playTextWithTTS_factor (ora : Oracle) (text model voice : Chars) (speed : Rat)
    (s : St) :
    appendsNoRevoke (stopCurrentAudio s) (playTextWithTTS ora text model voice speed s).1 := by
  unfold playTextWithTTS
  dsimp only
  split
  · exact playChunksLoop_appends _ _ _ _ _ _
  · exact playSingle_appends _ _ _ _ _ _

theorem playTextWithTTS_appends (ora : Oracle) (text model voice : Chars) (speed : Rat)
    (s : St) :
    appendsNoRevoke s (playTextWithTTS ora text model voice speed s).1 :=
  appendsNoRevoke_trans (stopCurrentAudio_appends s) (playTextWithTTS_factor ora text model voice speed s)

theorem stopCurrentAudio_events_some (s : St) (a : Nat) (h : s.current = some a) :
    (stopCurrentAudio s).events = s.events ++ [Ev.stopped a] := by
  unfold stopCurrentAudio
  rw [h]

theorem stopCurrentAudio_current_some (s : St) (a : Nat) (h : s.current = some a) :
    (stopCurrentAudio s).current = none := by
  unfold stopCurrentAudio
  rw [h]

theorem stopCurrentAudio_pauses (s : St) (a : Nat) (h : s.current = some a) :
    ∀ e ∈ (stopCurrentAudio s).audios, e.id = a → e.paused = true ∧ e.currentTime = 0 := by
  unfold stopCurrentAudio
  rw [h]
  dsimp only
  intro e he ha
  rcases List.mem_map.1 he with ⟨e0, _, rfl⟩
  by_cases h0 : e0.id = a
  · rw [if_pos h0]
    exact ⟨rfl, rfl⟩
  · rw [if_neg h0] at ha
    exact absurd ha h0

theorem fireEnded_current_stale (s : St) (a : Nat) (h : getCurrentAudio s ≠ some a) :
    (fireEnded s a).current = s.current := by
  unfold fireEnded
  dsimp only
  split
  · rename_i hc; exact absurd hc h
  · rfl

theorem fireError_current_stale (s : St) (a : Nat) (h : getCurrentAudio s ≠ some a) :
    (fireError s a).current = s.current := by
  unfold fireError
  dsimp only
  split
  · rename_i hc; exact absurd hc h
  · rfl

theorem cleanupSingle_current_stale (s : St) (a : Nat) (h : getCurrentAudio s ≠ some a) :
    (cleanupSingle s a).current = s.current := by
  unfold cleanupSingle
  split
  · rename_i hc; exact absurd hc h
  · rfl

theorem fireEnded_current_own (s : St) (a : Nat) (h : getCurrentAudio s = some a) :
    (fireEnded s a).current = none := by
  unfold fireEnded
  dsimp only
  split
  · rfl
  · rename_i hc; exact absurd h hc

theorem fireError_current_own (s : St) (a : Nat) (h : getCurrentAudio s = some a) :
    (fireError s a).current = none := by
  unfold fireError
  dsimp only
  split
  · rfl
  · rename_i hc; exact absurd h hc

theorem cleanupSingle_current_own (s : St) (a : Nat) (h : getCurrentAudio s = some a) :
    (cleanupSingle s a).current = none := by
  unfold cleanupSingle
  split
  · rfl
  · rename_i hc; exact absurd h hc

/-- C1: at most one playback is active at a time.  Every `playTextWithTTS`
call performs the stop of the previously tracked audio as its very first
observable action — the stop event precedes every event the call adds, in
particular every playback start — and the stop pauses that audio, resets its
position to 0 and clears the shared reference.  A terminal handler
(`onended`, `onerror`, or the single-chunk `cleanup`) clears the shared
reference only when its own audio is still the tracked one; it never clears
a reference that a newer playback has installed. -/
theorem tts_single_stream_invariant :
    (∀ (ora : Oracle) (text model voice : Chars) (speed : Rat) (s : St) (a : Nat),
      s.current = some a →
      ∃ t, (playTextWithTTS ora text model voice speed s).1.events
          = s.events ++ [Ev.stopped a] ++ t) ∧
    (∀ (s : St) (a : Nat), s.current = some a →
      (stopCurrentAudio s).current = none ∧
      ∀ e ∈ (stopCurrentAudio s).audios, e.id = a → e.paused = true ∧ e.currentTime = 0) ∧
    (∀ (s : St) (a : Nat), getCurrentAudio s ≠ some a →
      (fireEnded s a).current = s.current ∧ (fireError s a).current = s.current ∧
      (cleanupSingle s a).current = s.current) ∧
    (∀ (s : St) (a : Nat), getCurrentAudio s = some a →
      (fireEnded s a).current = none ∧ (fireError s a).current = none ∧
      (cleanupSingle s a).current = none) := by
  refine ⟨?_, ?_, ?_, ?_⟩
  · intro ora text model voice speed s a h
    obtain ⟨t, ht, _⟩ := playTextWithTTS_factor ora text model voice speed s
    exact ⟨t, by rw [ht, stopCurrentAudio_events_some s a h]⟩
  · intro s a h
    exact ⟨stopCurrentAudio_current_some s a h, stopCurrentAudio_pauses s a h⟩
  · intro s a h
    exact ⟨fireEnded_current_stale s a h, fireError_current_stale s a h,
      cleanupSingle_current_stale s a h⟩
  · intro s a h
    exact ⟨fireEnded_current_own s a h, fireError_current_own s a h,
      cleanupSingle_current_own s a h⟩

/-- Closed instance of the C1 theorem: with audio 5 tracked, a call stops it
first, and the guarded handlers behave as stated. -/
theorem tts_single_stream_invariant_witness :
    (∃ t, (playTextWithTTS oraAllOk "hi".data "tts-1".data "alloy".data 1
        { st0 with current := some 5 }).1.events
        = ({ st0 with current := some 5 } : St).events ++ [Ev.stopped 5] ++ t) ∧
    (stopCurrentAudio { st0 with current := some 5 }).current = none ∧
    (fireEnded { st0 with current := some 7 } 5).current = some 7 ∧
    (fireEnded { st0 with current := some 5 } 5).current = none := by
  refine ⟨?_, ?_, ?_, ?_⟩
  · exact tts_single_stream_invariant.1 oraAllOk "hi".data "tts-1".data "alloy".data 1
      { st0 with current := some 5 } 5 rfl
  · exact (tts_single_stream_invariant.2.1 { st0 with current := some 5 } 5 rfl).1
  · exact ((tts_single_stream_invariant.2.2.1 { st0 with current := some 7 } 5
      (by decide)).1).trans rfl
  · exact (tts_single_stream_invariant.2.2.2 { st0 with current := some 5 } 5 rfl).1

/-- C4: the terminal handlers are cache-frame-preserving — `onended`,
`onerror` and the single-chunk `cleanup` leave the audio cache exactly
unchanged and revoke no object URL; moreover an entire `playTextWithTTS` run
never emits a revocation event, so cached entries are only ever released by
the cache itself (eviction or clear), never by playback completion. -/
theorem tts_terminal_handlers_frame :
    (∀ (s : St) (a : Nat),
      (fireEnded s a).cache = s.cache ∧ (fireError s a).cache = s.cache ∧
      (cleanupSingle s a).cache = s.cache ∧
      appendsNoRevoke s (fireEnded s a) ∧ appendsNoRevoke s (fireError s a) ∧
      appendsNoRevoke s (cleanupSingle s a)) ∧
    (∀ (ora : Oracle) (text model voice : Chars) (speed : Rat) (s : St),
      appendsNoRevoke s (playTextWithTTS ora text model voice speed s).1) := by
  constructor
  · intro s a
    exact ⟨fireEnded_cache s a, fireError_cache s a, cleanupSingle_cache s a,
      fireEnded_appends s a, fireError_appends s a, cleanupSingle_appends s a⟩
  · intro ora text model voice speed s
    exact playTextWithTTS_appends ora text model voice speed s

/-- C9 counterexample: on empty input the early identity branch returns the
whole text as one (empty) chunk — the result has length 1, not 0. -/
theorem splitTextForTTS_empty_cex :
    splitTextForTTS [] MAX_TTS_CHARACTERS = [[]] ∧
    (splitTextForTTS [] MAX_TTS_CHARACTERS).length = 1 := by
  constructor <;> rfl

/-- C9 amended: for empty input and any maximum, `splitTextForTTS` returns a
single-element list holding the empty chunk (the `text.length <= maxChars`
branch returns `[text]` before any filtering). -/
theorem splitTextForTTS_empty :
    ∀ maxChars : Nat, splitTextForTTS [] maxChars = [[]] := by
  intro maxChars
  unfold splitTextForTTS
  rw [if_pos (by simp)]

/-- C8 counterexample: a non-success response whose parsed body carries the
error-message field with value the empty string does not reject with that
field (as the claim requires) but with the generic fallback message, because
the source uses JS truthiness (`||`). -/
theorem fetchAudioFromAPI_empty_message_cex :
    fetchAudioFromAPI (FetchResp.http false 401 (some (some [])) []) =
      Except.error ("HTTP error! status: 401".data) ∧
    ("HTTP error! status: 401".data ≠ ([] : Chars)) := by
  exact ⟨rfl, by decide⟩

/-- C3: contrary to the claim, neither eviction in `AudioCache.set` nor
`AudioCache.clear` revokes any object URL — the eviction-cleanup branch in
the source is empty and `clear` only clears the map.  On a store at capacity,
inserting an 11th key does evict the least-recently-used entry (the size
stays 10 and key 0 is gone) yet the set of URLs revoked by the call is empty;
clearing the full store likewise removes all 10 entries and revokes
nothing. -/
theorem audioCache_releases_nothing :
    ((AudioCache.set fullStore (sampleKey 10) (sampleEntry 10)).1.length = 10) ∧
    ((AudioCache.set fullStore (sampleKey 10) (sampleEntry 10)).1.find?
      (fun p => p.1 == sampleKey 0) = none) ∧
    ((AudioCache.set fullStore (sampleKey 10) (sampleEntry 10)).2 = []) ∧
    ((AudioCache.clear fullStore).1 = [] ∧ (AudioCache.clear fullStore).2 = []) := by
  refine ⟨by decide, by decide, rfl, rfl, rfl⟩

theorem stopCurrentAudio_filter (s : St) (p : Ev → Bool)
    (hp : ∀ a, p (Ev.stopped a) = false) :
    (stopCurrentAudio s).events.filter p = s.events.filter p := by
  unfold stopCurrentAudio
  cases hc : s.current with
  | none => rfl
  | some a =>
    dsimp only
    rw [List.filter_append]
    simp [hp a]

theorem awaitChunkPlayback_success_ended (ora : Oracle) (s : St) (u : Nat)
    (h : (awaitChunkPlayback ora s u).2 = none) :
    ((awaitChunkPlayback ora s u).1.events.filter isEnded).length
      = (s.events.filter isEnded).length + 1 := by
  unfold awaitChunkPlayback newAudio at *
  dsimp only at *
  revert h
  cases ora.playResult (setCurrentAudio
      { s with nextAudio := s.nextAudio + 1,
               audios := s.audios ++ [⟨s.nextAudio, u, true, 0⟩] }
      (some s.nextAudio)).playCount with
  | ended =>
    intro _
    dsimp only
    rcases fireEnded_events _ s.nextAudio with h | h
    · rw [h]
      simp [setCurrentAudio, List.filter_append, isEnded]
    · rw [h]
      simp [setCurrentAudio, List.filter_append, isEnded]
  | error => intro h; exact absurd h (by simp)
  | rejected msg => intro h; exact absurd h (by simp)

theorem playChunk_success_ended (ora : Oracle) (model voice : Chars) (speed : Rat)
    (s : St) (chunk : Chars)
    (h : (playChunk ora model voice speed s chunk).2 = none) :
    ((playChunk ora model voice speed s chunk).1.events.filter isEnded).length
      = (s.events.filter isEnded).length + 1 := by
  unfold playChunk at *
  dsimp only at *
  revert h
  rcases hg : lruGet s.cache (mkCacheKey chunk model voice speed) with ⟨hit, cache1⟩
  cases hit with
  | some ca =>
    intro h
    exact awaitChunkPlayback_success_ended ora { s with cache := cache1 } ca.url h
  | none =>
    dsimp only
    rcases hf : fetchAudioFromAPI (ora.fetchResp s.fetchCount) with msg | blob
    · intro h; exact absurd h (by simp)
    · dsimp only
      intro h
      rw [awaitChunkPlayback_success_ended ora _ _ h, cacheAndCreate_events]
      simp [List.filter_append, isEnded]

theorem playChunksLoop_success_ended (ora : Oracle) (model voice : Chars) (speed : Rat)
    (chunks : List Chars) : ∀ s : St,
    (playChunksLoop ora model voice speed chunks s).2 = none →
    ((playChunksLoop ora model voice speed chunks s).1.events.filter isEnded).length
      = (s.events.filter isEnded).length + chunks.length := by
  induction chunks with
  | nil => intro s _; simp [playChunksLoop]
  | cons c rest ih =>
    intro s h
    unfold playChunksLoop at h ⊢
    rcases hp : playChunk ora model voice speed s c with ⟨s1, err⟩
    rw [hp] at h
    cases err with
    | some e => simp at h
    | none =>
      dsimp only at h ⊢
      have h1 : ((s1.events.filter isEnded).length = (s.events.filter isEnded).length + 1) := by
        have h2 := playChunk_success_ended ora model voice speed s c (by rw [hp])
        rw [hp] at h2
        exact h2
      rw [ih s1 h, h1]
      simp only [List.length_cons]
      omega

theorem startSinglePlayback_frame (ora : Oracle) (s : St) (u : Nat) :
    (startSinglePlayback ora s u).1.cache = s.cache ∧
    (startSinglePlayback ora s u).1.fetchCount = s.fetchCount ∧
    (startSinglePlayback ora s u).1.events.filter isEnded = s.events.filter isEnded ∧
    (startSinglePlayback ora s u).1.events.filter isFetch = s.events.filter isFetch ∧
    ((startSinglePlayback ora s u).2 = none →
      ((startSinglePlayback ora s u).1.events.filter isPlayStart).length
        = (s.events.filter isPlayStart).length + 1) := by
  unfold startSinglePlayback newAudio
  dsimp only
  cases ora.playResult (setCurrentAudio
      { s with nextAudio := s.nextAudio + 1,
               audios := s.audios ++ [⟨s.nextAudio, u, true, 0⟩] }
      (some s.nextAudio)).playCount with
  | ended =>
    refine ⟨rfl, rfl, ?_, ?_, fun _ => ?_⟩ <;>
      simp [setCurrentAudio, List.filter_append, isEnded, isFetch, isPlayStart]
  | error =>
    refine ⟨rfl, rfl, ?_, ?_, fun _ => ?_⟩ <;>
      simp [setCurrentAudio, List.filter_append, isEnded, isFetch, isPlayStart]
  | rejected msg =>
    refine ⟨rfl, rfl, ?_, ?_, fun hc => absurd hc (by simp)⟩ <;>
      simp [setCurrentAudio, List.filter_append, isEnded, isFetch]

theorem playSingle_no_ended (ora : Oracle) (model voice : Chars) (speed : Rat)
    (text : Chars) (s : St) :
    ((playSingle ora model voice speed text s).1.events.filter isEnded).length
      = (s.events.filter isEnded).length ∧
    ((playSingle ora model voice speed text s).2 = none →
      ((playSingle ora model voice speed text s).1.events.filter isPlayStart).length
        = (s.events.filter isPlayStart).length + 1) := by
  unfold playSingle
  dsimp only
  rcases hg : lruGet s.cache (mkCacheKey text model voice speed) with ⟨hit, cache1⟩
  cases hit with
  | some ca =>
    have hf := startSinglePlayback_frame ora { s with cache := cache1 } ca.url
    exact ⟨by rw [hf.2.2.1], fun h => hf.2.2.2.2 h⟩
  | none =>
    dsimp only
    rcases hf : fetchAudioFromAPI (ora.fetchResp s.fetchCount) with msg | blob
    · exact ⟨by simp [List.filter_append, isEnded], fun h => absurd h (by simp)⟩
    · dsimp only
      have hfr := startSinglePlayback_frame ora
        (cacheAndCreate { s with cache := cache1 } (mkCacheKey text model voice speed) blob).1
        (cacheAndCreate { s with cache := cache1 } (mkCacheKey text model voice speed) blob).2
      constructor
      · rw [hfr.2.2.1, cacheAndCreate_events]
        simp [List.filter_append, isEnded]
      · intro h
        rw [hfr.2.2.2.2 h, cacheAndCreate_events]
        simp [List.filter_append, isPlayStart]

/-- C2 counterexample: for the single-chunk text `Hello world` (with every
fetch succeeding and playback eventually ending), `playTextWithTTS` resolves
even though no `ended` event has occurred within the call — its playback has
merely started (`await audio.play()`), refuting the claim that the promise
resolves only after the last chunk's playback reaches natural end. -/
theorem playTextWithTTS_resolves_after_start_cex :
    (playTextWithTTS oraAllOk "Hello world".data "tts-1".data "alloy".data 1 st0).2 = none ∧
    ((playTextWithTTS oraAllOk "Hello world".data "tts-1".data "alloy".data 1
      st0).1.events.filter isEnded) = [] ∧
    ((playTextWithTTS oraAllOk "Hello world".data "tts-1".data "alloy".data 1
      st0).1.events.filter isPlayStart) = [Ev.playStarted 0] := by
  exact ⟨by decide, by decide, by decide⟩

/-- C2 amended: when the text splits into two or more chunks, the operation
resolves only after every chunk's playback has reached natural end (a
successful run records exactly one `ended` event per chunk); but when the
text fits in a single chunk, the operation resolves as soon as playback has
started — a successful single-chunk run records a playback start and no
`ended` event. -/
theorem playTextWithTTS_completion_amended :
    ∀ (ora : Oracle) (text model voice : Chars) (speed : Rat) (s : St),
      (1 < (splitTextForTTS text MAX_TTS_CHARACTERS).length →
        (playTextWithTTS ora text model voice speed s).2 = none →
        ((playTextWithTTS ora text model voice speed s).1.events.filter isEnded).length
          = (s.events.filter isEnded).length
              + (splitTextForTTS text MAX_TTS_CHARACTERS).length) ∧
      ((splitTextForTTS text MAX_TTS_CHARACTERS).length ≤ 1 →
        ((playTextWithTTS ora text model voice speed s).1.events.filter isEnded).length
          = (s.events.filter isEnded).length ∧
        ((playTextWithTTS ora text model voice speed s).2 = none →
          ((playTextWithTTS ora text model voice speed s).1.events.filter isPlayStart).length
            = (s.events.filter isPlayStart).length + 1)) := by
  intro ora text model voice speed s
  unfold playTextWithTTS
  dsimp only
  constructor
  · intro hlen h
    rw [if_pos hlen] at h ⊢
    rw [playChunksLoop_success_ended ora model voice speed _ _ h]
    rw [stopCurrentAudio_filter s isEnded (fun a => rfl)]
  · intro hlen
    have hnot : ¬ 1 < (splitTextForTTS text MAX_TTS_CHARACTERS).length := by omega
    rw [if_neg hnot]
    have hp := playSingle_no_ended ora model voice speed text (stopCurrentAudio s)
    constructor
    · rw [hp.1, stopCurrentAudio_filter s isEnded (fun a => rfl)]
    · intro h
      rw [hp.2 h, stopCurrentAudio_filter s isPlayStart (fun a => rfl)]

/-- Closed instance of the amended C2 theorem, single-chunk side: the
successful `Hello world` run records no `ended` event and exactly one
playback start. -/
theorem playTextWithTTS_completion_amended_witness :
    ((playTextWithTTS oraAllOk "Hello world".data "tts-1".data "alloy".data 1
      st0).1.events.filter isEnded).length = 0 ∧
    ((playTextWithTTS oraAllOk "Hello world".data "tts-1".data "alloy".data 1
      st0).1.events.filter isPlayStart).length = 1 := by
  have h := (playTextWithTTS_completion_amended oraAllOk "Hello world".data "tts-1".data
    "alloy".data 1 st0).2 (by decide)
  exact ⟨h.1.trans (by decide), (h.2 (by decide)).trans (by decide)⟩

theorem splitTextForTTS_identity (text : Chars) (maxChars : Nat)
    (h : text.length ≤ maxChars) : splitTextForTTS text maxChars = [text] := by
  unfold splitTextForTTS
  rw [if_pos h]

theorem lruGet_none_find (c : CacheStore) (k : CacheKey)
    (h : (lruGet c k).1 = none) : c.find? (fun p => p.1 == k) = none := by
  unfold lruGet at h
  cases hf : c.find? (fun p => p.1 == k) with
  | none => rfl
  | some p =>
    rw [hf] at h
    simp at h

theorem lruGet_miss (c : CacheStore) (k : CacheKey)
    (h : (lruGet c k).1 = none) : lruGet c k = (none, c) := by
  unfold lruGet
  rw [lruGet_none_find c k h]

theorem lruGet_cons_self (k : CacheKey) (v : CachedAudio) (rest : CacheStore) :
    lruGet ((k, v) :: rest) k = (some v, (k, v) :: rest) := by
  unfold lruGet
  have h1 : List.find? (fun p => p.1 == k) ((k, v) :: rest) = some (k, v) := by
    simp [List.find?]
  rw [h1]
  have h2 : List.eraseP (fun q => q.1 == k) ((k, v) :: rest) = rest := by
    rw [List.eraseP_cons]
    simp
  rw [h2]

theorem lruSet_miss_cons (c : CacheStore) (k : CacheKey) (v : CachedAudio)
    (h : c.find? (fun p => p.1 == k) = none) :
    ∃ rest, lruSet c k v = (k, v) :: rest := by
  unfold lruSet
  rw [h]
  by_cases hl : c.length < LRU_CAPACITY
  · rw [if_neg (by simp), if_pos hl]
    exact ⟨c, rfl⟩
  · rw [if_neg (by simp), if_neg hl]
    exact ⟨c.dropLast, rfl⟩

theorem startAfterCache_facts (ora : Oracle) (s : St) (key : CacheKey) (blob : Blob) :
    (startSinglePlayback ora (cacheAndCreate s key blob).1
        (cacheAndCreate s key blob).2).1.cache = lruSet s.cache key ⟨s.nextUrl, blob⟩ ∧
    (startSinglePlayback ora (cacheAndCreate s key blob).1
        (cacheAndCreate s key blob).2).1.fetchCount = s.fetchCount + 1 ∧
    ((startSinglePlayback ora (cacheAndCreate s key blob).1
        (cacheAndCreate s key blob).2).1.events.filter isFetch).length
      = (s.events.filter isFetch).length + 1 := by
  have hfr := startSinglePlayback_frame ora (cacheAndCreate s key blob).1
    (cacheAndCreate s key blob).2
  refine ⟨?_, ?_, ?_⟩
  · rw [hfr.1]
    exact (cacheAndCreate_fields s key blob).1
  · rw [hfr.2.1]
    exact (cacheAndCreate_fields s key blob).2.1
  · rw [hfr.2.2.2.1, cacheAndCreate_events]
    simp [List.filter_append, isFetch]

theorem playSingle_miss_ok (ora : Oracle) (model voice : Chars) (speed : Rat)
    (text : Chars) (s : St) (blob : Blob)
    (hmiss : (lruGet s.cache (mkCacheKey text model voice speed)).1 = none)
    (hf : fetchAudioFromAPI (ora.fetchResp s.fetchCount) = Except.ok blob) :
    (∃ rest, (playSingle ora model voice speed text s).1.cache
        = (mkCacheKey text model voice speed, (⟨s.nextUrl, blob⟩ : CachedAudio)) :: rest) ∧
    (playSingle ora model voice speed text s).1.fetchCount = s.fetchCount + 1 ∧
    ((playSingle ora model voice speed text s).1.events.filter isFetch).length
      = (s.events.filter isFetch).length + 1 := by
  unfold playSingle
  dsimp only
  rw [lruGet_miss _ _ hmiss]
  dsimp only
  rw [hf]
  dsimp only
  have hfacts := startAfterCache_facts ora s (mkCacheKey text model voice speed) blob
  obtain ⟨rest, hr⟩ := lruSet_miss_cons s.cache (mkCacheKey text model voice speed)
    ⟨s.nextUrl, blob⟩ (lruGet_none_find _ _ hmiss)
  exact ⟨⟨rest, hfacts.1.trans hr⟩, hfacts.2.1, hfacts.2.2⟩

theorem playSingle_head_hit (ora : Oracle) (model voice : Chars) (speed : Rat)
    (text : Chars) (s : St) (v : CachedAudio) (rest : CacheStore)
    (hc : s.cache = (mkCacheKey text model voice speed, v) :: rest) :
    (playSingle ora model voice speed text s).1.cache = s.cache ∧
    (playSingle ora model voice speed text s).1.fetchCount = s.fetchCount ∧
    (playSingle ora model voice speed text s).1.events.filter isFetch
      = s.events.filter isFetch := by
  unfold playSingle
  dsimp only
  rw [hc, lruGet_cons_self]
  dsimp only
  have hfr := startSinglePlayback_frame ora
    { s with cache := (mkCacheKey text model voice speed, v) :: rest } v.url
  refine ⟨?_, hfr.2.1, hfr.2.2.2.1⟩
  rw [hfr.1]

theorem playTextWithTTS_single_eq (ora : Oracle) (text model voice : Chars) (speed : Rat)
    (s : St) (h : (splitTextForTTS text MAX_TTS_CHARACTERS).length ≤ 1) :
    playTextWithTTS ora text model voice speed s
      = playSingle ora model voice speed text (stopCurrentAudio s) := by
  unfold playTextWithTTS
  dsimp only
  rw [if_neg (by omega)]

/-- C10: when a chunk misses the cache and the render call fails (network
failure or non-success HTTP status mapped to an error by
`fetchAudioFromAPI`), the operation rejects with that error and performs no
further effect for that chunk: the resulting state is the input state with
only the fetch attempt recorded — no cache insertion, no object URL created,
no audio element created and no playback started.  This holds for the
multi-chunk loop body, for the single-chunk branch, and hence for a
single-chunk `playTextWithTTS` call as a whole. -/
theorem fetch_failure_is_cache_pure :
    ∀ (ora : Oracle) (model voice : Chars) (speed : Rat) (s : St) (chunk msg : Chars),
      (lruGet s.cache (mkCacheKey chunk model voice speed)).1 = none →
      fetchAudioFromAPI (ora.fetchResp s.fetchCount) = Except.error msg →
      playChunk ora model voice speed s chunk =
        ({ s with fetchCount := s.fetchCount + 1,
                  events := s.events ++ [Ev.fetched s.fetchCount] }, some msg) ∧
      playSingle ora model voice speed chunk s =
        ({ s with fetchCount := s.fetchCount + 1,
                  events := s.events ++ [Ev.fetched s.fetchCount] }, some msg) ∧
      ((splitTextForTTS chunk MAX_TTS_CHARACTERS).length ≤ 1 → s.current = none →
        (playTextWithTTS ora chunk model voice speed s).2 = some msg ∧
        (playTextWithTTS ora chunk model voice speed s).1.cache = s.cache ∧
        (playTextWithTTS ora chunk model voice speed s).1.nextUrl = s.nextUrl ∧
        (playTextWithTTS ora chunk model voice speed s).1.events.filter isPlayStart
          = s.events.filter isPlayStart) := by
  intro ora model voice speed s chunk msg hmiss hf
  have hchunk : playChunk ora model voice speed s chunk =
      ({ s with fetchCount := s.fetchCount + 1,
                events := s.events ++ [Ev.fetched s.fetchCount] }, some msg) := by
    unfold playChunk
    dsimp only
    rw [lruGet_miss _ _ hmiss]
    dsimp only
    rw [hf]
  have hsingle : playSingle ora model voice speed chunk s =
      ({ s with fetchCount := s.fetchCount + 1,
                events := s.events ++ [Ev.fetched s.fetchCount] }, some msg) := by
    unfold playSingle
    dsimp only
    rw [lruGet_miss _ _ hmiss]
    dsimp only
    rw [hf]
  refine ⟨hchunk, hsingle, ?_⟩
  intro hlen hcur
  have hstop : stopCurrentAudio s = s := by
    unfold stopCurrentAudio
    rw [hcur]
  rw [playTextWithTTS_single_eq ora chunk model voice speed s hlen, hstop, hsingle]
  refine ⟨rfl, rfl, rfl, ?_⟩
  rw [List.filter_append]
  simp [isPlayStart]

/-- Closed instance of the C10 theorem: with an empty cache and a failing
HTTP 500 render, the single-chunk call rejects with the generic message and
leaves the cache empty, creates no URL and starts no playback. -/
theorem fetch_failure_is_cache_pure_witness :
    (playTextWithTTS oraFail "hi".data "tts-1".data "alloy".data 1 st0).2
      = some ("HTTP error! status: 500".data) ∧
    (playTextWithTTS oraFail "hi".data "tts-1".data "alloy".data 1 st0).1.cache = [] ∧
    (playTextWithTTS oraFail "hi".data "tts-1".data "alloy".data 1 st0).1.nextUrl = 0 := by
  have h := (fetch_failure_is_cache_pure oraFail "tts-1".data "alloy".data 1 st0 "hi".data
    ("HTTP error! status: 500".data) (by decide) rfl).2.2 (by decide) rfl
  exact ⟨h.1, h.2.1, h.2.2.1⟩

/-- C7: two consecutive `playTextWithTTS` calls with identical text, model,
voice and speed against the same (threaded) cache compute the same cache key
(`mkCacheKey` is a function of exactly these inputs, embedding the
deterministic `JSON.stringify` serialization), and the second call is served
from the cache: across both calls the remote render is invoked exactly once
— the fetch counter rises by exactly one and exactly one fetch event is
recorded.  Stated for texts that fit in one chunk, as in the spec scenario
(`Hello world`). -/
theorem repeat_speak_fetches_once :
    ∀ (ora1 ora2 : Oracle) (text model voice : Chars) (speed : Rat) (s : St) (blob : Blob),
      text.length ≤ MAX_TTS_CHARACTERS →
      (lruGet s.cache (mkCacheKey text model voice speed)).1 = none →
      fetchAudioFromAPI (ora1.fetchResp s.fetchCount) = Except.ok blob →
      (playTextWithTTS ora2 text model voice speed
          (playTextWithTTS ora1 text model voice speed s).1).1.fetchCount
        = s.fetchCount + 1 ∧
      ((playTextWithTTS ora2 text model voice speed
          (playTextWithTTS ora1 text model voice speed s).1).1.events.filter isFetch).length
        = (s.events.filter isFetch).length + 1 := by
  intro ora1 ora2 text model voice speed s blob hlen hmiss hf
  have hone : (splitTextForTTS text MAX_TTS_CHARACTERS).length ≤ 1 := by
    rw [splitTextForTTS_identity text MAX_TTS_CHARACTERS hlen]
    simp
  rw [playTextWithTTS_single_eq ora1 text model voice speed s hone,
      playTextWithTTS_single_eq ora2 text model voice speed _ hone]
  have hmiss1 : (lruGet (stopCurrentAudio s).cache (mkCacheKey text model voice speed)).1
      = none := by
    rw [stopCurrentAudio_cache]
    exact hmiss
  have hf1 : fetchAudioFromAPI (ora1.fetchResp (stopCurrentAudio s).fetchCount)
      = Except.ok blob := by
    rw [(stopCurrentAudio_counts s).1]
    exact hf
  obtain ⟨⟨rest, hcache⟩, hfc, hfilter⟩ :=
    playSingle_miss_ok ora1 model voice speed text (stopCurrentAudio s) blob hmiss1 hf1
  have hc2 : (stopCurrentAudio
      (playSingle ora1 model voice speed text (stopCurrentAudio s)).1).cache
      = (mkCacheKey text model voice speed,
          (⟨(stopCurrentAudio s).nextUrl, blob⟩ : CachedAudio)) :: rest := by
    rw [stopCurrentAudio_cache]
    exact hcache
  obtain ⟨_, hfc2, hfilter2⟩ :=
    playSingle_head_hit ora2 model voice speed text
      (stopCurrentAudio (playSingle ora1 model voice speed text (stopCurrentAudio s)).1)
      ⟨(stopCurrentAudio s).nextUrl, blob⟩ rest hc2
  constructor
  · rw [hfc2, (stopCurrentAudio_counts _).1, hfc, (stopCurrentAudio_counts s).1]
  · rw [hfilter2, stopCurrentAudio_filter _ isFetch (fun a => rfl), hfilter,
      stopCurrentAudio_filter s isFetch (fun a => rfl)]

/-- Closed instance of the C7 theorem: two identical `Hello world` calls on
the pristine state perform exactly one fetch in total. -/
theorem repeat_speak_fetches_once_witness :
    (playTextWithTTS oraAllOk "Hello world".data "tts-1".data "alloy".data 1
      (playTextWithTTS oraAllOk "Hello world".data "tts-1".data "alloy".data 1
        st0).1).1.fetchCount = 1 ∧
    ((playTextWithTTS oraAllOk "Hello world".data "tts-1".data "alloy".data 1
      (playTextWithTTS oraAllOk "Hello world".data "tts-1".data "alloy".data 1
        st0).1).1.events.filter isFetch).length = 1 := by
  have h := repeat_speak_fetches_once oraAllOk oraAllOk "Hello world".data "tts-1".data
    "alloy".data 1 st0 [1] (by decide) (by decide) rfl
  exact ⟨h.1.trans (by decide), h.2.trans (by decide)⟩

/-- C8 amended: on a non-success HTTP status, `fetchAudioFromAPI` rejects
with exactly the parsed body's error message when that field is present and
non-empty (truthy), and falls back to the generic message containing the
HTTP status when the body cannot be parsed, the field is absent, or the
message is the empty string; a single-chunk `playTextWithTTS` call on a
cache miss propagates that exact message. -/
theorem fetchAudioFromAPI_error_message :
    (∀ (status : Nat) (blob : Blob) (msg : Chars), msg ≠ [] →
      fetchAudioFromAPI (FetchResp.http false status (some (some msg)) blob)
        = Except.error msg) ∧
    (∀ (status : Nat) (blob : Blob),
      fetchAudioFromAPI (FetchResp.http false status none blob)
        = Except.error (httpErrorMsg status) ∧
      fetchAudioFromAPI (FetchResp.http false status (some none) blob)
        = Except.error (httpErrorMsg status)) ∧
    (∀ (ora : Oracle) (model voice : Chars) (speed : Rat) (s : St) (chunk msg : Chars)
      (status : Nat) (blob : Blob),
      msg ≠ [] →
      (lruGet s.cache (mkCacheKey chunk model voice speed)).1 = none →
      ora.fetchResp s.fetchCount = FetchResp.http false status (some (some msg)) blob →
      s.current = none →
      (splitTextForTTS chunk MAX_TTS_CHARACTERS).length ≤ 1 →
      (playTextWithTTS ora chunk model voice speed s).2 = some msg) := by
  refine ⟨?_, ?_, ?_⟩
  · intro status blob msg hne
    cases msg with
    | nil => exact absurd rfl hne
    | cons a l => rfl
  · intro status blob
    exact ⟨rfl, rfl⟩
  · intro ora model voice speed s chunk msg status blob hne hmiss hresp hcur hlen
    have hf : fetchAudioFromAPI (ora.fetchResp s.fetchCount) = Except.error msg := by
      rw [hresp]
      cases msg with
      | nil => exact absurd rfl hne
      | cons a l => rfl
    have hstop : stopCurrentAudio s = s := by
      unfold stopCurrentAudio
      rw [hcur]
    rw [playTextWithTTS_single_eq ora chunk model voice speed s hlen, hstop]
    unfold playSingle
    dsimp only
    rw [lruGet_miss _ _ hmiss]
    dsimp only
    rw [hf]

/-- Closed instance of the amended C8 theorem: the 401 response with body
message `invalid api key` rejects with exactly that message, and so does the
whole call. -/
theorem fetchAudioFromAPI_error_message_witness :
    fetchAudioFromAPI (FetchResp.http false 401 (some (some "invalid api key".data)) [])
      = Except.error "invalid api key".data ∧
    (playTextWithTTS ora401 "hi".data "tts-1".data "alloy".data 1 st0).2
      = some "invalid api key".data := by
  constructor
  · exact fetchAudioFromAPI_error_message.1 401 [] "invalid api key".data (by decide)
  · exact fetchAudioFromAPI_error_message.2.2 ora401 "tts-1".data "alloy".data 1 st0
      "hi".data "invalid api key".data 401 [] (by decide) (by decide) rfl rfl (by decide)

theorem subSeg_refl (l : Chars) : subSeg l l :=
  ⟨[], [], by simp⟩

theorem subSeg_trans {a b c : Chars} (h1 : subSeg a b) (h2 : subSeg b c) : subSeg a c := by
  obtain ⟨p1, q1, e1⟩ := h1
  obtain ⟨p2, q2, e2⟩ := h2
  exact ⟨p2 ++ p1, q1 ++ q2, by rw [e2, e1]; simp [List.append_assoc]⟩

theorem takeWhile_subSeg (p : Char → Bool) (l : Chars) : subSeg (l.takeWhile p) l :=
  ⟨[], l.dropWhile p, by simp [List.takeWhile_append_dropWhile]⟩

theorem dropWhile_subSeg (p : Char → Bool) (l : Chars) : subSeg (l.dropWhile p) l :=
  ⟨l.takeWhile p, [], by simp [List.takeWhile_append_dropWhile]⟩

theorem splitWordsF_join : ∀ (fuel : Nat) (s : Chars), (splitWordsF fuel s).flatten = s := by
  intro fuel
  induction fuel with
  | zero => intro s; simp [splitWordsF]
  | succ n ih =>
    intro s
    unfold splitWordsF
    by_cases h : (s.dropWhile (fun c => !(isWsChar c))).length = 0
    · rw [if_pos h]
      have h0 : s.dropWhile (fun c => !(isWsChar c)) = [] := List.length_eq_zero.mp h
      have h1 := List.takeWhile_append_dropWhile (fun c => !(isWsChar c)) s
      rw [h0, List.append_nil] at h1
      simp [h1]
    · rw [if_neg h]
      simp only [List.flatten, List.append_assoc]
      rw [ih, List.takeWhile_append_dropWhile, List.takeWhile_append_dropWhile]

theorem splitWordsF_subSeg : ∀ (fuel : Nat) (s : Chars),
    ∀ x ∈ splitWordsF fuel s, subSeg x s := by
  intro fuel
  induction fuel with
  | zero => intro s x hx; simp [splitWordsF] at hx; subst hx; exact subSeg_refl _
  | succ n ih =>
    intro s x hx
    unfold splitWordsF at hx
    by_cases h : (s.dropWhile (fun c => !(isWsChar c))).length = 0
    · rw [if_pos h] at hx
      simp at hx
      subst hx
      exact takeWhile_subSeg _ s
    · rw [if_neg h] at hx
      simp only [List.mem_cons] at hx
      rcases hx with hx | hx | hx
      · subst hx; exact takeWhile_subSeg _ s
      · subst hx
        exact subSeg_trans (takeWhile_subSeg _ _) (dropWhile_subSeg _ s)
      · exact subSeg_trans (ih _ x hx)
          (subSeg_trans (dropWhile_subSeg _ _) (dropWhile_subSeg _ s))

theorem splitWordsF_shape : ∀ (fuel : Nat) (s : Chars), s.length < fuel →
    ∀ x ∈ splitWordsF fuel s, wsFree x ∨ allWs x := by
  intro fuel
  induction fuel with
  | zero => intro s hs; omega
  | succ n ih =>
    intro s hs x hx
    unfold splitWordsF at hx
    by_cases h : (s.dropWhile (fun c => !(isWsChar c))).length = 0
    · rw [if_pos h] at hx
      simp at hx
      subst hx
      left
      intro c hc
      have := List.mem_takeWhile_imp hc
      simpa using this
    · rw [if_neg h] at hx
      simp only [List.mem_cons] at hx
      rcases hx with hx | hx | hx
      · subst hx
        left
        intro c hc
        have := List.mem_takeWhile_imp hc
        simpa using this
      · subst hx
        right
        intro c hc
        exact List.mem_takeWhile_imp hc
      · refine ih _ ?_ x hx
        have hlt : ((s.dropWhile (fun c => !(isWsChar c))).dropWhile isWsChar).length
            < s.length := by
          apply dropWhile_dropWhile_lt
          · exact h
          · intro c t hct
            have := dropWhile_head_false (fun c => !(isWsChar c)) s c t hct
            simpa using this
        omega

theorem splitWords_join (s : Chars) : (splitWords s).flatten = s :=
  splitWordsF_join (s.length + 1) s

theorem splitWords_subSeg (s : Chars) : ∀ x ∈ splitWords s, subSeg x s :=
  splitWordsF_subSeg (s.length + 1) s

theorem splitWords_shape (s : Chars) : ∀ x ∈ splitWords s, wsFree x ∨ allWs x :=
  splitWordsF_shape (s.length + 1) s (Nat.lt_succ_self _)

theorem splitSentencesF_join : ∀ (fuel : Nat) (s : Chars),
    (splitSentencesF fuel s).flatten = s := by
  intro fuel
  induction fuel with
  | zero => intro s; simp [splitSentencesF]
  | succ n ih =>
    intro s
    unfold splitSentencesF
    by_cases h : (s.dropWhile (fun c => !(isTermChar c))).length = 0
    · rw [if_pos h]
      have h0 : s.dropWhile (fun c => !(isTermChar c)) = [] := List.length_eq_zero.mp h
      have h1 := List.takeWhile_append_dropWhile (fun c => !(isTermChar c)) s
      rw [h0, List.append_nil] at h1
      simp [h1]
    · rw [if_neg h]
      simp only [List.flatten, List.append_assoc]
      rw [ih, List.takeWhile_append_dropWhile, List.takeWhile_append_dropWhile,
        List.takeWhile_append_dropWhile]

theorem splitSentencesF_subSeg : ∀ (fuel : Nat) (s : Chars),
    ∀ x ∈ splitSentencesF fuel s, subSeg x s := by
  intro fuel
  induction fuel with
  | zero => intro s x hx; simp [splitSentencesF] at hx; subst hx; exact subSeg_refl _
  | succ n ih =>
    intro s x hx
    unfold splitSentencesF at hx
    by_cases h : (s.dropWhile (fun c => !(isTermChar c))).length = 0
    · rw [if_pos h] at hx
      simp at hx
      subst hx
      exact takeWhile_subSeg _ s
    · rw [if_neg h] at hx
      simp only [List.mem_cons] at hx
      rcases hx with hx | hx | hx
      · subst hx; exact takeWhile_subSeg _ s
      · subst hx
        refine subSeg_trans ?_ (dropWhile_subSeg (fun c => !(isTermChar c)) s)
        refine ⟨[], ((s.dropWhile (fun c => !(isTermChar c))).dropWhile
          isTermChar).dropWhile isWsChar, ?_⟩
        rw [List.nil_append, List.append_assoc, List.takeWhile_append_dropWhile,
          List.takeWhile_append_dropWhile]
      · exact subSeg_trans (ih _ x hx)
          (subSeg_trans (dropWhile_subSeg _ _)
            (subSeg_trans (dropWhile_subSeg _ _) (dropWhile_subSeg _ s)))

theorem splitSentences_join (s : Chars) : (splitSentences s).flatten = s :=
  splitSentencesF_join (s.length + 1) s

theorem splitSentences_subSeg (s : Chars) : ∀ x ∈ splitSentences s, subSeg x s :=
  splitSentencesF_subSeg (s.length + 1) s

theorem dropWhile_eq_self_all (p : Char → Bool) (l : Chars)
    (h : ∀ c ∈ l, p c = false) : l.dropWhile p = l := by
  cases l with
  | nil => rfl
  | cons a t =>
    rw [List.dropWhile_cons]
    rw [h a (List.mem_cons_self a t)]
    simp

theorem dropWhile_eq_nil_all (p : Char → Bool) (l : Chars)
    (h : ∀ c ∈ l, p c = true) : l.dropWhile p = [] := by
  induction l with
  | nil => rfl
  | cons a t ih =>
    rw [List.dropWhile_cons, h a (List.mem_cons_self a t)]
    simp only [if_true]
    exact ih (fun c hc => h c (List.mem_cons_of_mem a hc))

theorem jsTrim_length_le (s : Chars) : (jsTrim s).length ≤ s.length := by
  unfold jsTrim
  rw [List.length_reverse]
  calc (((s.dropWhile isWsChar).reverse).dropWhile isWsChar).length
      ≤ ((s.dropWhile isWsChar).reverse).length := length_dropWhile_le _ _
    _ = (s.dropWhile isWsChar).length := List.length_reverse _
    _ ≤ s.length := length_dropWhile_le _ _

theorem jsTrim_wsFree (s : Chars) (h : wsFree s) : jsTrim s = s := by
  unfold jsTrim
  rw [dropWhile_eq_self_all _ _ h]
  rw [dropWhile_eq_self_all _ _ (fun c hc => h c (List.mem_reverse.mp hc))]
  exact List.reverse_reverse s

theorem jsTrim_allWs (s : Chars) (h : allWs s) : jsTrim s = [] := by
  unfold jsTrim
  rw [dropWhile_eq_nil_all _ _ h]
  rfl

theorem nws_append (a b : Chars) : nws (a ++ b) = nws a ++ nws b := by
  simp [nws]

theorem nws_allWs (s : Chars) (h : allWs s) : nws s = [] := by
  unfold nws
  induction s with
  | nil => rfl
  | cons a t ih =>
    rw [List.filter_cons]
    rw [h a (List.mem_cons_self a t)]
    simpa using ih (fun c hc => h c (List.mem_cons_of_mem a hc))

theorem nws_reverse (s : Chars) : nws s.reverse = (nws s).reverse := by
  simp [nws]

theorem nws_dropWs (l : Chars) : nws (l.dropWhile isWsChar) = nws l := by
  conv_rhs => rw [← List.takeWhile_append_dropWhile isWsChar l]
  rw [nws_append, nws_allWs _ (fun c hc => List.mem_takeWhile_imp hc), List.nil_append]

theorem nws_jsTrim (s : Chars) : nws (jsTrim s) = nws s := by
  unfold jsTrim
  rw [nws_reverse, nws_dropWs, nws_reverse, List.reverse_reverse, nws_dropWs]

theorem push_trim_ok (text : Chars) (maxChars : Nat) (cc : Chars)
    (h : ccOk text maxChars cc) : chunkOk text maxChars (jsTrim cc) := by
  rcases h with h | ⟨hw, hs⟩
  · exact Or.inl (le_trans (jsTrim_length_le cc) h)
  · rcases hw with hw | hw
    · rw [jsTrim_wsFree cc hw]
      exact Or.inr ⟨hw, hs⟩
    · rw [jsTrim_allWs cc hw]
      exact Or.inl (by simp)

theorem wordStep_acc_ok (text : Chars) (maxChars : Nat) (acc : ChunkAcc) (w : Chars)
    (hacc : accOk text maxChars acc)
    (hw : (wsFree w ∨ allWs w) ∧ subSeg w text) :
    accOk text maxChars (wordStep maxChars acc w) := by
  obtain ⟨hchunks, hcc⟩ := hacc
  unfold wordStep
  split
  · refine ⟨?_, Or.inr hw⟩
    intro c hc
    rcases List.mem_append.1 hc with hc | hc
    · exact hchunks c hc
    · split at hc
      · simp at hc
      · simp at hc
        subst hc
        exact push_trim_ok text maxChars _ hcc
  · rename_i hle
    refine ⟨hchunks, Or.inl ?_⟩
    rw [List.length_append]
    omega

theorem foldl_wordStep_ok (text : Chars) (maxChars : Nat) : ∀ (ws : List Chars)
    (acc : ChunkAcc), accOk text maxChars acc →
    (∀ w ∈ ws, (wsFree w ∨ allWs w) ∧ subSeg w text) →
    accOk text maxChars (ws.foldl (wordStep maxChars) acc) := by
  intro ws
  induction ws with
  | nil => intro acc hacc _; exact hacc
  | cons w rest ih =>
    intro acc hacc hws
    rw [List.foldl_cons]
    exact ih _ (wordStep_acc_ok text maxChars acc w hacc (hws w (List.mem_cons_self w rest)))
      (fun x hx => hws x (List.mem_cons_of_mem w hx))

theorem sentenceStep_acc_ok (text : Chars) (maxChars : Nat) (acc : ChunkAcc) (s : Chars)
    (hacc : accOk text maxChars acc) (hs : subSeg s text) :
    accOk text maxChars (sentenceStep maxChars acc s) := by
  unfold sentenceStep
  split
  · exact hacc
  split
  · refine foldl_wordStep_ok text maxChars _ _ ?_ ?_
    · split
      · exact hacc
      · refine ⟨?_, Or.inl (by simp)⟩
        intro c hc
        rcases List.mem_append.1 hc with hc | hc
        · exact hacc.1 c hc
        · simp at hc
          subst hc
          exact push_trim_ok text maxChars _ hacc.2
    · intro w hw
      exact ⟨splitWords_shape s w hw, subSeg_trans (splitWords_subSeg s w hw) hs⟩
  split
  · rename_i hb hlen
    refine ⟨?_, Or.inl (by show s.length ≤ maxChars; omega)⟩
    intro c hc
    rcases List.mem_append.1 hc with hc | hc
    · exact hacc.1 c hc
    · simp at hc
      subst hc
      exact push_trim_ok text maxChars _ hacc.2
  · rename_i hb hlen hsum
    refine ⟨hacc.1, Or.inl ?_⟩
    rw [List.length_append]
    omega

theorem foldl_sentenceStep_ok (text : Chars) (maxChars : Nat) : ∀ (l : List Chars)
    (acc : ChunkAcc), accOk text maxChars acc → (∀ p ∈ l, subSeg p text) →
    accOk text maxChars (l.foldl (sentenceStep maxChars) acc) := by
  intro l
  induction l with
  | nil => intro acc hacc _; exact hacc
  | cons p rest ih =>
    intro acc hacc hl
    rw [List.foldl_cons]
    exact ih _ (sentenceStep_acc_ok text maxChars acc p hacc (hl p (List.mem_cons_self p rest)))
      (fun x hx => hl x (List.mem_cons_of_mem p hx))

/-- C5: every chunk produced by `splitTextForTTS` is within `maxChars`,
except that an oversized chunk is always a single whitespace-free token of
the input emitted verbatim (an untruncated contiguous segment of the text,
produced by the whitespace word-split and never split further). -/
theorem splitTextForTTS_chunk_bound :
    ∀ (text : Chars) (maxChars : Nat) (c : Chars), c ∈ splitTextForTTS text maxChars →
      c.length ≤ maxChars ∨ (wsFree c ∧ subSeg c text) := by
  intro text maxChars c hc
  unfold splitTextForTTS at hc
  split at hc
  · rename_i hle
    simp at hc
    subst hc
    exact Or.inl hle
  · dsimp only at hc
    have hacc := foldl_sentenceStep_ok text maxChars (splitSentences text) ⟨[], []⟩
      ⟨by intro x hx; simp at hx, Or.inl (by simp)⟩
      (fun p hp => splitSentences_subSeg text p hp)
    have hc2 := List.mem_of_mem_filter hc
    rcases List.mem_append.1 hc2 with h | h
    · exact hacc.1 c h
    · split at h
      · simp at h
      · simp at h
        subst h
        exact push_trim_ok text maxChars _ hacc.2

/-- Closed instance of the C5 theorem at a concrete split. -/
theorem splitTextForTTS_chunk_bound_witness :
    "ab".data ∈ splitTextForTTS "ab cd".data 3 ∧
    ("ab".data.length ≤ 3 ∨ (wsFree "ab".data ∧ subSeg "ab".data "ab cd".data)) :=
  ⟨by decide, splitTextForTTS_chunk_bound "ab cd".data 3 "ab".data (by decide)⟩

theorem nws_joinSp : ∀ l : List Chars, nws (joinSp l) = nws l.flatten := by
  intro l
  induction l with
  | nil => rfl
  | cons a t ih =>
    cases t with
    | nil => simp [joinSp, nws]
    | cons b r =>
      have h1 : joinSp (a :: b :: r) = a ++ ' ' :: joinSp (b :: r) := rfl
      rw [h1, List.flatten_cons, nws_append, nws_append]
      have h2 : nws (' ' :: joinSp (b :: r)) = nws (joinSp (b :: r)) := by
        unfold nws
        rw [List.filter_cons]
        simp [isWsChar]
      rw [h2, ih]

theorem nws_flatten_map_jsTrim : ∀ l : List Chars,
    nws ((l.map jsTrim).flatten) = nws l.flatten := by
  intro l
  induction l with
  | nil => rfl
  | cons a t ih =>
    rw [List.map_cons, List.flatten_cons, List.flatten_cons, nws_append, nws_append,
      nws_jsTrim, ih]

theorem flatten_filter_nonempty : ∀ l : List Chars,
    (l.filter (fun c => decide (0 < c.length))).flatten = l.flatten := by
  intro l
  induction l with
  | nil => rfl
  | cons a t ih =>
    rw [List.filter_cons]
    by_cases h : 0 < a.length
    · rw [if_pos (by simpa using h)]
      rw [List.flatten_cons, List.flatten_cons, ih]
    · have h0 : a = [] := by
        cases a with
        | nil => rfl
        | cons x xs => simp at h
      rw [if_neg (by simpa using h)]
      rw [ih, h0, List.flatten_cons, List.nil_append]

theorem wordStep_nws (maxChars : Nat) (acc : ChunkAcc) (w : Chars) :
    nwsAcc (wordStep maxChars acc w) = nwsAcc acc ++ nws w := by
  unfold wordStep nwsAcc
  split
  · split
    · rename_i hemp
      have h0 : acc.currentChunk = [] := by simpa using hemp
      dsimp only
      rw [h0]
      simp [nws]
    · dsimp only
      rw [List.flatten_append, nws_append]
      simp only [List.flatten_cons, List.flatten_nil, List.append_nil]
      rw [nws_jsTrim, List.append_assoc]
  · dsimp only
    rw [nws_append, List.append_assoc]

theorem foldl_wordStep_nws (maxChars : Nat) : ∀ (ws : List Chars) (acc : ChunkAcc),
    nwsAcc (ws.foldl (wordStep maxChars) acc) = nwsAcc acc ++ nws ws.flatten := by
  intro ws
  induction ws with
  | nil => intro acc; simp [nws]
  | cons w rest ih =>
    intro acc
    rw [List.foldl_cons, ih, wordStep_nws, List.flatten_cons, nws_append,
      List.append_assoc]

theorem sentenceStep_nws (maxChars : Nat) (acc : ChunkAcc) (s : Chars) :
    nwsAcc (sentenceStep maxChars acc s) = nwsAcc acc ++ nws s := by
  unfold sentenceStep
  split
  · rename_i hemp
    have h0 : s = [] := by simpa using hemp
    rw [h0]
    simp [nws]
  split
  · rw [foldl_wordStep_nws, splitWords_join]
    congr 1
    split
    · rfl
    · unfold nwsAcc
      dsimp only
      rw [List.flatten_append, nws_append]
      simp only [List.flatten_cons, List.flatten_nil, List.append_nil]
      rw [nws_jsTrim]
      simp [nws]
  split
  · unfold nwsAcc
    dsimp only
    rw [List.flatten_append, nws_append]
    simp only [List.flatten_cons, List.flatten_nil, List.append_nil]
    rw [nws_jsTrim, List.append_assoc]
  · unfold nwsAcc
    dsimp only
    rw [nws_append, List.append_assoc]

theorem foldl_sentenceStep_nws (maxChars : Nat) : ∀ (l : List Chars) (acc : ChunkAcc),
    nwsAcc (l.foldl (sentenceStep maxChars) acc) = nwsAcc acc ++ nws l.flatten := by
  intro l
  induction l with
  | nil => intro acc; simp [nws]
  | cons p rest ih =>
    intro acc
    rw [List.foldl_cons, ih, sentenceStep_nws, List.flatten_cons, nws_append,
      List.append_assoc]

/-- C6: chunking loses no data — for every text and maximum, trimming each
returned chunk and re-joining with single spaces preserves exactly the
non-whitespace characters of the input, in order. -/
theorem splitTextForTTS_preserves_content :
    ∀ (text : Chars) (maxChars : Nat),
      nws (joinSp ((splitTextForTTS text maxChars).map jsTrim)) = nws text := by
  intro text maxChars
  rw [nws_joinSp, nws_flatten_map_jsTrim]
  unfold splitTextForTTS
  split
  · simp [nws]
  · dsimp only
    rw [flatten_filter_nonempty]
    have hfold := foldl_sentenceStep_nws maxChars (splitSentences text) ⟨[], []⟩
    rw [splitSentences_join] at hfold
    unfold nwsAcc at hfold
    simp only [List.flatten_nil] at hfold
    rw [List.flatten_append, nws_append]
    split
    · rename_i hemp
      have h0 : ((splitSentences text).foldl (sentenceStep maxChars)
          ⟨[], []⟩).currentChunk = [] := by simpa using hemp
      rw [h0] at hfold
      simp only [List.flatten_nil, List.append_nil] at hfold ⊢
      simpa using hfold
    · rw [List.flatten_cons, List.flatten_nil, List.append_nil, nws_jsTrim]
      simpa using hfold

end ReadFrog
